import Mathlib

/-!
Verification development for an excerpt of the randovania randomization
toolkit.  The Python sources are shallowly embedded as Lean definitions:
pure functions become Lean functions, Python dicts become association
lists kept in insertion order, fallible operations (assertions, list
indexing that can raise) return `Option`, and the stateful elevator
shuffle is expressed as explicit state passing with a fuel parameter for
its unbounded loops.
-/

namespace Randovania

/-! ## Basic value types (game_description.area_location & friends) -/

/-- A (world identifier, area identifier) pair; immutable value. -/
structure AreaLocation where
  world_asset_id : Nat
  area_asset_id : Nat
deriving DecidableEq, Repr

/-- A pickup catalog entry.  Only the identity (its name) matters to the
claims treated here; all database attributes of a pickup are looked up
through `PickupDatabase`. -/
structure PickupEntry where
  name : String
deriving DecidableEq, Repr

/-- A dock connection record (game_description.node.DockConnection). -/
structure DockConnection where
  area_asset_id : Nat
  dock_index : Nat
deriving DecidableEq, Repr

/-- A dock weakness record (game_description.dock.DockWeakness). -/
structure DockWeakness where
  index : Nat
deriving DecidableEq, Repr

/-- Resource types; only EVENT is exercised by the embedded code. -/
inductive ResourceType where
  | item
  | event
deriving DecidableEq, Repr

/-- A resource identity: either a pickup index acting as its own
resource (resolver.resources.PickupIndex) or a database resource located
by type and index. -/
inductive ResourceInfo where
  | pickupIndex (index : Nat)
  | simple (resourceType : ResourceType) (index : Nat)
deriving DecidableEq, Repr

/-! ## Patch overlay (game_description/game_patches.py)

Python dicts are embedded as association lists in insertion order; a
successful `dict[k] = v` on a fresh key appends `(k, v)`.  The `assert`
in `assign_new_pickups` is embedded by returning `none`.  Being a value
in a pure language, the receiver of each operation is untouched by
construction, which embeds the frozen-dataclass copy-on-write behaviour
of the source. -/

/-- `index in dict` for the pickup-assignment dict. -/
def pickupKeyMem (m : List (Nat × PickupEntry)) (k : Nat) : Bool :=
  m.any (fun pr => pr.1 == k)

/-- GamePatches: all deviations from the base world description for one
randomization run (frozen dataclass in the source). -/
structure GamePatches where
  pickup_assignment : List (Nat × PickupEntry)
  elevator_connection : List (Nat × AreaLocation)
  dock_connection : List ((Nat × Nat) × DockConnection)
  dock_weakness : List ((Nat × Nat) × DockWeakness)
  extra_initial_items : List (ResourceInfo × Nat)
  starting_location : AreaLocation
deriving DecidableEq, Repr

/-- `GamePatches.with_game`: a fresh overlay with empty mappings and the
base description's starting location. -/
def GamePatches.with_game (starting : AreaLocation) : GamePatches :=
  ⟨[], [], [], [], [], starting⟩

/-- One iteration of the loop inside `assign_new_pickups`:
`assert index not in new_pickup_assignment; new_pickup_assignment[index] = pickup`. -/
def assignStep (acc : List (Nat × PickupEntry)) (pr : Nat × PickupEntry) :
    Option (List (Nat × PickupEntry)) :=
  if pickupKeyMem acc pr.1 then none else some (acc ++ [pr])

/-- `GamePatches.assign_new_pickups`: merge the pairs into a copy of
`pickup_assignment`, failing (assertion) on an already-present index. -/
def GamePatches.assign_new_pickups (self : GamePatches)
    (assignments : List (Nat × PickupEntry)) : Option GamePatches :=
  match assignments.foldlM assignStep self.pickup_assignment with
  | none => none
  | some m => some { self with pickup_assignment := m }

/-- `GamePatches.assign_pickup_assignment`: convenience form taking a
whole mapping (`assignment.items()` of a dict, i.e. its pair list). -/
def GamePatches.assign_pickup_assignment (self : GamePatches)
    (assignment : List (Nat × PickupEntry)) : Option GamePatches :=
  self.assign_new_pickups assignment

/-- `GamePatches.assign_starting_location`: replace `starting_location`. -/
def GamePatches.assign_starting_location (self : GamePatches)
    (location : AreaLocation) : GamePatches :=
  { self with starting_location := location }

/-! ## Pickup patch array (claris_randomizer._calculate_indices) -/

/-- The name of the fixed filler item (`_USELESS_PICKUP_NAME`). -/
def uselessPickupName : String := "Energy Transfer Module"

/-- The pickup database interface used by `_calculate_indices`.  The
spec requires `pickup_by_name` and `original_index` to be total over the
catalog, so they are embedded as total functions; `original_index`
directly yields the `.index` field of the original-index record. -/
structure PickupDatabase where
  total_pickup_count : Nat
  pickup_by_name : String → PickupEntry
  original_index : PickupEntry → Nat

/-- `_calculate_indices`: an array sized to the total pickup count,
every slot defaulted to the filler item's original index, then each slot
with an assignment in the overlay overwritten with the assigned pickup's
original index.  A pickup index outside the array raises in Python and
is embedded as `none`. -/
def calculate_indices (pdb : PickupDatabase)
    (pickup_assignment : List (Nat × PickupEntry)) : Option (List Nat) :=
  pickup_assignment.foldlM
    (fun arr pr =>
      if pr.1 < arr.length then some (arr.set pr.1 (pdb.original_index pr.2)) else none)
    (List.replicate pdb.total_pickup_count
      (pdb.original_index (pdb.pickup_by_name uselessPickupName)))

/-! ## Subprocess finish-sentinel protocol (claris_randomizer._run_with_args)

`_run_with_args` drives the external process and feeds every dispatched
output line to its `read_callback`.  The embedding takes the ordered
list of dispatched lines as input.  `finished_updates` starts `False`
and each line is processed by
`if not finished_updates: status_update(line); finished_updates = line == finish_string`,
so once it becomes `True` it stays `True`.  After the process exits the
sole success check is this flag; the process exit code (parameter
`exitCode` below) is never consulted. -/

/-- Final value of the `finished_updates` flag after all dispatched
lines are processed. -/
def finishedUpdatesAfter (dispatched : List String) (finish_string : String) : Bool :=
  dispatched.foldl (fun acc line => if acc then acc else line == finish_string) false

/-- `_run_with_args`: normal return is `Except.ok ()`, the
`RuntimeError` is `Except.error` carrying the message that names the
missing sentinel (the source wraps the sentinel in single quotes via
`format`; the quote characters are elided here). -/
def run_with_args (_args : List String) (_exitCode : Int)
    (dispatched : List String) (finish_string : String) : Except String Unit :=
  if finishedUpdatesAfter dispatched finish_string then Except.ok ()
  else
    Except.error ("External tool did not send " ++ finish_string ++ ". Did something happen?")

/-! ## World-graph resource nodes (resolver/node.py)

`resolver/node.py` resolves a pickup node's collected resources through
the narrow legacy overlay of `resolver.game_patches`, which exposes only
a positional `pickup_mapping` (pickup index → pickup index).  That
module and `resolver.resources` are not part of the excerpt, so they are
modelled from the spec (§3, §4.2 design note, §9): the overlay is a bare
index list, a database pickup entry carries its resource gain, and
`get_by_type_and_index` is a lookup by resource type and index. -/

/-- Modelled from the spec: a resolver-side pickup entry, carrying the
(resource, amount) pairs it grants (`resource_gain`). -/
structure ResolverPickupEntry where
  resource_gain : List (ResourceInfo × Nat)
deriving DecidableEq, Repr

/-- Modelled from the spec: the resource database used by node
resolution, with the pickup catalog (`pickups`, indexed by original
index) and `get_by_type_and_index`. -/
structure ResourceDatabase where
  pickups : List ResolverPickupEntry
  get_by_type_and_index : ResourceType → Nat → ResourceInfo

/-- Modelled from the spec: the narrow legacy overlay of
`resolver.game_patches`, exposing only the positional
`pickup_mapping` (index → index). -/
structure ResolverGamePatches where
  pickup_mapping : List Nat
deriving DecidableEq, Repr

/-- A collectible-pickup node. -/
structure PickupNode where
  name : String
  heal : Bool
  pickup_index : Nat
deriving DecidableEq, Repr

/-- A one-time progression event node. -/
structure EventNode where
  name : String
  heal : Bool
  event_index : Nat
deriving DecidableEq, Repr

/-- `PickupNode.resource`: the pickup index itself is the resource. -/
def PickupNode.resource (node : PickupNode) (_db : ResourceDatabase) : ResourceInfo :=
  ResourceInfo.pickupIndex node.pickup_index

/-- `PickupNode.resource_gain_on_collect`: one pair for the pickup-index
resource, then every gain of the pickup the overlay maps this index to.
The two list indexings can raise in Python and are embedded as `none`. -/
def PickupNode.resource_gain_on_collect (node : PickupNode)
    (db : ResourceDatabase) (game_patches : ResolverGamePatches) :
    Option (List (ResourceInfo × Nat)) :=
  match game_patches.pickup_mapping[node.pickup_index]? with
  | none => none
  | some newIndex =>
    match db.pickups[newIndex]? with
    | none => none
    | some entry => some ((node.resource db, 1) :: entry.resource_gain)

/-- `EventNode.resource`: database lookup by event index. -/
def EventNode.resource (node : EventNode) (db : ResourceDatabase) : ResourceInfo :=
  db.get_by_type_and_index ResourceType.event node.event_index

/-- `EventNode.resource_gain_on_collect`: exactly one pair. -/
def EventNode.resource_gain_on_collect (node : EventNode)
    (db : ResourceDatabase) (_game_patches : ResolverGamePatches) :
    List (ResourceInfo × Nat) :=
  [(node.resource db, 1)]

/-! ## Tracker window action history (gui/tracker_window.py)

In the source, `TrackerWindow` declares
`_actions: List[Node] = []` in the class body, making `_actions` a
single class attribute shared by every instance of the class; no method
ever rebinds `self._actions`, they only call `append`/`pop` on it, which
mutate the shared list.  The embedding therefore threads the
class-level list explicitly: each operation takes the current shared
list and returns the new shared list.  Nodes are identified
abstractly by `Nat`. -/

/-- `TrackerWindow.__init__`: after building the UI it calls
`self._add_new_action(self._initial_state.node)`, appending the new
window's initial node to the (shared) action list. -/
def tracker_init (class_actions : List Nat) (initial_node : Nat) : List Nat :=
  class_actions ++ [initial_node]

/-- `TrackerWindow._add_new_action`: `self._actions.append(node)`. -/
def tracker_add_new_action (class_actions : List Nat) (node : Nat) : List Nat :=
  class_actions ++ [node]

/-- `TrackerWindow._on_tree_node_double_clicked`: append the node unless
it equals the current location (`self._actions[-1]`). -/
def tracker_on_tree_node_double_clicked (class_actions : List Nat) (node : Nat) : List Nat :=
  if class_actions.getLast? = some node then class_actions
  else tracker_add_new_action class_actions node

/-- `TrackerWindow._undo_last_action`: `self._actions.pop()`. -/
def tracker_undo_last_action (class_actions : List Nat) : List Nat :=
  class_actions.dropLast

/-! ## Release packager (create_windows_release.py)

The archive is embedded as the ordered list of its entries together
with the compression each entry was written with.  `ZipFile.write` and
`ZipFile.writestr` both default the entry's compression to the
archive-level `compression` chosen at construction
(`zipfile.ZIP_DEFLATED` in the source).  The staged bundle is the list
of paths produced by `package_folder.glob("**/*")` (relative to the
bundle root), and the readme-assets directory is the `os.walk` result:
a list of `(subdir, files-in-subdir)` groups. -/

/-- Compression of a zip entry. -/
inductive ZipCompression where
  | stored
  | deflated
deriving DecidableEq, Repr

/-- A zip archive under construction. -/
structure ZipFile where
  compression : ZipCompression
  entries : List (String × ZipCompression)
deriving DecidableEq, Repr

/-- `ZipFile.write`: add one entry from a file, with the archive's
compression. -/
def ZipFile.write (z : ZipFile) (arcname : String) : ZipFile :=
  { z with entries := z.entries ++ [(arcname, z.compression)] }

/-- `ZipFile.writestr`: add one entry from in-memory data, with the
archive's compression. -/
def ZipFile.writestr (z : ZipFile) (arcname : String) (_data : String) : ZipFile :=
  { z with entries := z.entries ++ [(arcname, z.compression)] }

/-- The archive-building part of `create_windows_release.py`: open a
deflate-compressed archive, add every staged bundle path under the
versioned prefix `randovania-<version>/`, add the rendered
`README.html`, then add every file found walking the
`randovania-readme` directory (each `subdir` as yielded by `os.walk`
already starts with `randovania-readme`). -/
def create_windows_release (version : String) (package_files : List String)
    (readme_html : String) (readme_walk : List (String × List String)) : ZipFile :=
  let zip_folder := "randovania-" ++ version
  let z0 : ZipFile := { compression := ZipCompression.deflated, entries := [] }
  let z1 := package_files.foldl (fun z f => z.write (zip_folder ++ "/" ++ f)) z0
  let z2 := z1.writestr (zip_folder ++ "/README.html") readme_html
  readme_walk.foldl
    (fun z sd => sd.2.foldl (fun zz file => zz.write (zip_folder ++ "/" ++ sd.1 ++ "/" ++ file)) z)
    z2

/-! ## Elevator shuffle (claris_randomizer.try_randomize_elevators)

The `Elevator` class and the `echoes_elevators` database live in
`game_description/echoes_elevator.py`, which is not part of the
excerpt.  Modelled from the spec (§3): an elevator carries its instance
id, originating world number, area asset id, world asset id and its
pre-shuffle destination area; `connect_to` is symmetric and assigns
only `connected_elevator`, so `destination_area` stays the pre-shuffle
value that Phase 2 reads.  The database is an arbitrary list `db`, and
the working lists hold positions into `db` — Python compares the
deep-copied elevator objects by identity, which positions model
exactly.  The seeded random source `claris_random.Random` is likewise
absent from the excerpt; per the spec `next_with_max(n)` yields an
integer in `[0, n]`, embedded as `draws k % (n + 1)` for an arbitrary
stream `draws` of naturals and a call counter `k`. -/

/-- Modelled from the spec: one end of a bidirectional transit link.
`connect_to` only pairs elevators, so these fields are the static,
pre-shuffle attributes. -/
structure Elevator where
  instance_id : Nat
  world_number : Nat
  area_asset_id : Nat
  world_asset_id : Nat
  destination_area : Nat
deriving DecidableEq, Repr

instance : Inhabited Elevator := ⟨⟨0, 0, 0, 0, 0⟩⟩

/-- World number of the elevator at position `i` of the database. -/
def eWorld (db : List Elevator) (i : Nat) : Nat :=
  (db.getD i default).world_number

/-- Area asset id of the elevator at position `i` of the database. -/
def eArea (db : List Elevator) (i : Nat) : Nat :=
  (db.getD i default).area_asset_id

/-- Pre-shuffle destination area of the elevator at position `i`. -/
def eDest (db : List Elevator) (i : Nat) : Nat :=
  (db.getD i default).destination_area

/-- First occurrences of a list, in order: the key order of a
`defaultdict` populated by one pass over the elevator list (a key is
inserted the first time its world is seen). -/
def firstOccs (l : List Nat) : List Nat :=
  l.foldl (fun acc a => if a ∈ acc then acc else acc ++ [a]) []

/-- Key order of `elevators_by_world`: the worlds in order of first
appearance in the database. -/
def worldOrder (db : List Elevator) : List Nat :=
  firstOccs (db.map (fun e => e.world_number))

/-- Size of the remaining group of world `w`
(`len(elevators_by_world[w])`; the incrementally maintained group for
`w` is exactly the remaining elevators of world `w` in original
order). -/
def groupLen (db : List Elevator) (remaining : List Nat) (w : Nat) : Nat :=
  (remaining.filter (fun i => eWorld db i == w)).length

/-- `max(elevators_by_world.values(), key=len)`: the first world (in
`defaultdict` key order) whose remaining group has maximal size —
Python's `max` keeps the first maximal element. -/
def pickSourceWorld (db : List Elevator) (remaining : List Nat) : Nat :=
  match worldOrder db with
  | [] => 0
  | w :: ws =>
    ws.foldl
      (fun best w2 =>
        if groupLen db remaining best < groupLen db remaining w2 then w2 else best)
      w

/-- One iteration of the Phase 1 pairing loop: take the first elevator
of the largest remaining per-world group as source, draw a uniformly
random target among the remaining elevators outside that group
(`next_with_max(len(target_elevators) - 1)` embedded as
`draw % targets.length`), connect them, and drop both from the work
lists.  An empty source group cannot occur, and an empty target list
makes the random draw and the indexing raise in Python; both are
embedded as `none`. -/
def phase1Step (db : List Elevator) (draw : Nat) (remaining : List Nat) :
    Option ((Nat × Nat) × List Nat) :=
  match remaining.filter (fun i => eWorld db i == pickSourceWorld db remaining),
        remaining.filter (fun i => eWorld db i != pickSourceWorld db remaining) with
  | src :: _, t :: ts =>
    some ((src, (t :: ts).getD (draw % (t :: ts).length) 0),
      (remaining.erase src).erase ((t :: ts).getD (draw % (t :: ts).length) 0))
  | _, _ => none

/-- Phase 1: the `while elevator_list:` pairing loop.  Returns the list
of bidirectional connections made (as pairs of database positions) and
the advanced random-call counter.  `fuel` bounds the iterations; each
successful step removes two elevators, so `remaining.length` iterations
always suffice. -/
def phase1 (db : List Elevator) (rng : Nat → Nat) :
    Nat → Nat → List Nat → Option (List (Nat × Nat) × Nat)
  | fuel, k, remaining =>
    match remaining with
    | [] => some ([], k)
    | _ :: _ =>
      match fuel with
      | 0 => none
      | fuel + 1 =>
        match phase1Step db (rng k) remaining with
        | none => none
        | some (pr, rest) =>
          match phase1 db rng fuel (k + 1) rest with
          | none => none
          | some (prs, k2) => some (pr :: prs, k2)

/-- The Phase 2 wavefront test applied by the code to candidate
`celevator2` against frontier member `celevator1`:
`celevator2.world_number == celevator1.world_number or
 celevator2.area_asset_id == celevator1.destination_area`. -/
def wavefrontTest (db : List Elevator) (c2 c1 : Nat) : Bool :=
  eWorld db c2 == eWorld db c1 || eArea db c2 == eDest db c1

/-- One full pass of the inner `for celevator1 in celevator_list3`
loop: for each frontier member in order, sweep the current `list3`,
moving every matching elevator (in order) into `celevator_list1`. -/
def sweep (db : List Elevator) :
    List Nat → List Nat → List Nat → List Nat × List Nat
  | [], cl1, l3 => (cl1, l3)
  | f :: fs, cl1, l3 =>
    sweep db fs (cl1 ++ l3.filter (fun c => wavefrontTest db c f))
      (l3.filter (fun c => !wavefrontTest db c f))

/-- Phase 2: the `while list3:` wavefront-expansion loop.
`some true` means every elevator was visited (pairing accepted),
`some false` means a layer expansion found nothing to add while
elevators remained (randomization failed, retry), `none` means the fuel
ran out (each continuing iteration strictly shrinks `list3`, so
`db.length` fuel always suffices). -/
def phase2Loop (db : List Elevator) :
    Nat → List Nat → List Nat → Option Bool
  | fuel, frontier, l3 =>
    match l3 with
    | [] => some true
    | _ :: _ =>
      match fuel with
      | 0 => none
      | fuel + 1 =>
        match sweep db frontier [] l3 with
        | (cl1, rest) =>
          match cl1 with
          | [] => some false
          | _ :: _ => phase2Loop db fuel cl1 rest

/-- `try_randomize_elevators`: run Phase 1 on a fresh copy of the
database, then validate with Phase 2 starting from the frontier
`[list3[0]]` (with `list3` still containing element 0); on a failed
validation, recursively retry with the same random source.  The result
is the list of connections made by the accepted Phase 1 run, plus the
advanced random-call counter.  `fuel` bounds the retries; `none` covers
fuel exhaustion and the `list3[0]` `IndexError` on an empty database. -/
def tryRandomizeElevators (db : List Elevator) (rng : Nat → Nat) :
    Nat → Nat → Option (List (Nat × Nat) × Nat)
  | 0, _ => none
  | fuel + 1, k =>
    match phase1 db rng db.length k (List.range db.length) with
    | none => none
    | some (pairs, k2) =>
      match List.range db.length with
      | [] => none
      | e0 :: _ =>
        match phase2Loop db db.length [e0] (List.range db.length) with
        | some true => some (pairs, k2)
        | some false => tryRandomizeElevators db rng fuel k2
        | none => none

/-- The validation relation of the claim, symmetrically: two elevators
are linked when they share a world number or one's area asset id equals
the other's pre-shuffle destination area. -/
def linkedElevators (db : List Elevator) (a b : Nat) : Prop :=
  eWorld db a = eWorld db b ∨ eArea db b = eDest db a ∨ eArea db a = eDest db b

/-- All remaining elevators belong to a single world. -/
def allSameWorld (db : List Elevator) (remaining : List Nat) : Prop :=
  ∀ i ∈ remaining, ∀ j ∈ remaining, eWorld db i = eWorld db j

instance (db : List Elevator) (remaining : List Nat) :
    Decidable (allSameWorld db remaining) :=
  List.decidableBAll _ remaining

/-- The remaining work list after one Phase 1 step (total version used
to state the step-wise safety precondition). -/
def stepRest (db : List Elevator) (draw : Nat) (remaining : List Nat) : List Nat :=
  match phase1Step db draw remaining with
  | some (_, rest) => rest
  | none => []

/-- The unstated Phase 1 precondition, step by step: at every pairing
step the remaining unpaired elevators do not all belong to a single
world. -/
inductive Phase1Safe (db : List Elevator) (rng : Nat → Nat) : Nat → List Nat → Prop
  | nil (k : Nat) : Phase1Safe db rng k []
  | step (k : Nat) (remaining : List Nat) :
      remaining ≠ [] →
      ¬ allSameWorld db remaining →
      Phase1Safe db rng (k + 1) (stepRest db (rng k) remaining) →
      Phase1Safe db rng k remaining

/-! ## Concrete sample data used by the witnesses -/

/-- A two-elevator database: worlds 0 and 1, each elevator's pre-shuffle
destination area being the other's area. -/
def sampleElevatorDb : List Elevator :=
  [⟨1, 0, 100, 50, 200⟩, ⟨2, 1, 200, 60, 100⟩]

/-- A deterministic random stream that always draws 0. -/
def sampleRng : Nat → Nat := fun _ => 0

/-- A sample overlay holding one prior pickup assignment. -/
def samplePatches : GamePatches :=
  ⟨[(1, ⟨"Dark Beam"⟩)], [], [], [], [], ⟨10, 20⟩⟩

/-- A sample pickup database with three pickup slots; the filler item
has original index 5 and every other pickup has original index 9. -/
def samplePickupDb : PickupDatabase :=
  ⟨3, fun _ => ⟨"Energy Transfer Module"⟩,
    fun e => if e.name = "Energy Transfer Module" then 5 else 9⟩

/-- A sample resource database: three pickups, the third granting two
units of item 7; events resolve to `ResourceInfo.simple`. -/
def sampleResourceDb : ResourceDatabase :=
  ⟨[⟨[]⟩, ⟨[]⟩, ⟨[(ResourceInfo.simple ResourceType.item 7, 2)]⟩],
    fun t i => ResourceInfo.simple t i⟩

end Randovania

namespace Randovania

/-! ## Helper lemmas -/

theorem finishedFold_or (finish_string : String) (l : List String) :
    ∀ b : Bool,
      l.foldl (fun acc line => if acc then acc else line == finish_string) b
        = (b || l.any (fun line => line == finish_string)) := by
  induction l with
  | nil => intro b; simp
  | cons a l ih =>
    intro b
    rw [List.foldl_cons, List.any_cons]
    cases b
    · cases h : a == finish_string <;> simp [h, ih]
    · simp [ih]

theorem finishedUpdatesAfter_iff (dispatched : List String) (finish_string : String) :
    finishedUpdatesAfter dispatched finish_string = true ↔ finish_string ∈ dispatched := by
  rw [finishedUpdatesAfter, finishedFold_or]
  simp [List.any_eq_true]

theorem pickupKeyMem_append (m : List (Nat × PickupEntry)) (pr : Nat × PickupEntry) (k : Nat) :
    pickupKeyMem (m ++ [pr]) k = (pickupKeyMem m k || (pr.1 == k)) := by
  simp [pickupKeyMem]

theorem assignFold_none (l : List (Nat × PickupEntry)) :
    ∀ m : List (Nat × PickupEntry), (∃ pr ∈ l, pickupKeyMem m pr.1 = true) →
      l.foldlM assignStep m = none := by
  induction l with
  | nil => rintro m ⟨pr, hpr, _⟩; simp at hpr
  | cons a l ih =>
    rintro m ⟨pr, hpr, hmem⟩
    rw [List.foldlM_cons]
    by_cases ha : pickupKeyMem m a.1 = true
    · simp [assignStep, ha]
    · have ha' : pickupKeyMem m a.1 = false := by simpa using ha
      have hstep : assignStep m a = some (m ++ [a]) := by simp [assignStep, ha']
      rw [hstep]
      have hpr' : pr ∈ l := by
        rcases List.mem_cons.1 hpr with h | h
        · exact absurd (h ▸ hmem) (by simp [ha'])
        · exact h
      show l.foldlM assignStep (m ++ [a]) = none
      refine ih (m ++ [a]) ⟨pr, hpr', ?_⟩
      rw [pickupKeyMem_append, hmem]
      rfl

theorem assignFold_some (l : List (Nat × PickupEntry)) :
    ∀ m : List (Nat × PickupEntry),
      (∀ pr ∈ l, pickupKeyMem m pr.1 = false) → (l.map Prod.fst).Nodup →
      l.foldlM assignStep m = some (m ++ l) := by
  induction l with
  | nil => intro m _ _; simp
  | cons a l ih =>
    intro m hfresh hnd
    have ha : pickupKeyMem m a.1 = false := hfresh a (List.mem_cons_self a l)
    have hnd' : (l.map Prod.fst).Nodup := (List.nodup_cons.1 (by simpa using hnd)).2
    have hnotin : a.1 ∉ l.map Prod.fst := (List.nodup_cons.1 (by simpa using hnd)).1
    have hfresh' : ∀ pr ∈ l, pickupKeyMem (m ++ [a]) pr.1 = false := by
      intro pr hpr
      rw [pickupKeyMem_append, hfresh pr (List.mem_cons_of_mem a hpr)]
      have : pr.1 ≠ a.1 := by
        intro hEq
        exact hnotin (hEq ▸ List.mem_map_of_mem Prod.fst hpr)
      simp [Ne.symm this]
    calc ((a :: l).foldlM assignStep m)
        = l.foldlM assignStep (m ++ [a]) := by
          simp [List.foldlM_cons, assignStep, ha]
      _ = some ((m ++ [a]) ++ l) := ih (m ++ [a]) hfresh' hnd'
      _ = some (m ++ a :: l) := by simp

theorem lookup_eq_none_of_not_mem_keys :
    ∀ (l : List (Nat × PickupEntry)) (k : Nat), k ∉ l.map Prod.fst → l.lookup k = none := by
  intro l
  induction l with
  | nil => intro k _; rfl
  | cons a l ih =>
    intro k hk
    obtain ⟨a1, a2⟩ := a
    simp only [List.map_cons, List.mem_cons, not_or] at hk
    have hbeq : (k == a1) = false := by simpa using hk.1
    simp [List.lookup_cons, hbeq, ih k hk.2]

theorem getD_set_self (l : List Nat) (i x : Nat) (h : i < l.length) :
    (l.set i x).getD i 0 = x := by
  simp [List.getD_eq_getElem?_getD, List.getElem?_set_self h]

theorem getD_set_ne (l : List Nat) (i j x : Nat) (h : i ≠ j) :
    (l.set i x).getD j 0 = l.getD j 0 := by
  simp [List.getD_eq_getElem?_getD, List.getElem?_set_ne h]

theorem calcIndicesFold (pdb : PickupDatabase) :
    ∀ (l : List (Nat × PickupEntry)) (arr : List Nat),
      (l.map Prod.fst).Nodup → (∀ pr ∈ l, pr.1 < arr.length) →
      ∃ out,
        l.foldlM
          (fun arr pr =>
            if pr.1 < arr.length then some (arr.set pr.1 (pdb.original_index pr.2)) else none)
          arr = some out
        ∧ out.length = arr.length
        ∧ ∀ i, i < arr.length →
            out.getD i 0 =
              (match l.lookup i with
               | some pk => pdb.original_index pk
               | none => arr.getD i 0) := by
  intro l
  induction l with
  | nil =>
    intro arr _ _
    exact ⟨arr, rfl, rfl, fun i _ => rfl⟩
  | cons a l ih =>
    intro arr hnd hlt
    obtain ⟨k, pk⟩ := a
    have hk : k < arr.length := hlt (k, pk) (List.mem_cons_self _ _)
    have hnd2 : k ∉ l.map Prod.fst ∧ (l.map Prod.fst).Nodup := by
      rw [List.map_cons, List.nodup_cons] at hnd
      exact hnd
    have hlt2 : ∀ pr ∈ l, pr.1 < (arr.set k (pdb.original_index pk)).length := by
      intro pr hpr
      rw [List.length_set]
      exact hlt pr (List.mem_cons_of_mem _ hpr)
    obtain ⟨out, hfold, hlen, hget⟩ := ih (arr.set k (pdb.original_index pk)) hnd2.2 hlt2
    refine ⟨out, ?_, ?_, ?_⟩
    · rw [List.foldlM_cons]
      have hstep :
          (if (k, pk).1 < arr.length then
            some (arr.set (k, pk).1 (pdb.original_index (k, pk).2)) else none)
            = some (arr.set k (pdb.original_index pk)) := by
        simp [hk]
      rw [hstep]
      exact hfold
    · rw [hlen, List.length_set]
    · intro i hi
      have hi2 : i < (arr.set k (pdb.original_index pk)).length := by
        rw [List.length_set]
        exact hi
      have hout := hget i hi2
      by_cases hik : i = k
      · subst hik
        rw [hout, lookup_eq_none_of_not_mem_keys l i hnd2.1, List.lookup_cons_self]
        exact getD_set_self arr i (pdb.original_index pk) hk
      · have hbeq : (i == k) = false := by simpa using hik
        have hcons : ((k, pk) :: l).lookup i = l.lookup i := by
          simp [List.lookup_cons, hbeq]
        rw [hout, hcons]
        cases hl : l.lookup i with
        | some pk2 => rfl
        | none => exact getD_set_ne arr k i (pdb.original_index pk) (fun h => hik h.symm)

theorem files_fold_entries (zf : String) :
    ∀ (files : List String) (z : ZipFile),
      files.foldl (fun z f => z.write (zf ++ "/" ++ f)) z =
        ⟨z.compression, z.entries ++ files.map (fun f => (zf ++ "/" ++ f, z.compression))⟩ := by
  intro files
  induction files with
  | nil => intro z; simp
  | cons f fs ih =>
    intro z
    rw [List.foldl_cons, ih]
    simp [ZipFile.write]

theorem walk_fold_entries (zf : String) :
    ∀ (walk : List (String × List String)) (z : ZipFile),
      walk.foldl
        (fun z sd =>
          sd.2.foldl (fun zz file => zz.write (zf ++ "/" ++ sd.1 ++ "/" ++ file)) z) z =
        ⟨z.compression,
          z.entries ++ walk.flatMap (fun sd =>
            sd.2.map (fun file => (zf ++ "/" ++ sd.1 ++ "/" ++ file, z.compression)))⟩ := by
  intro walk
  induction walk with
  | nil => intro z; simp
  | cons sd walk ih =>
    intro z
    rw [List.foldl_cons, files_fold_entries (zf ++ "/" ++ sd.1) sd.2 z, ih]
    simp

theorem bind_map_length (g : String × List String → String → String × ZipCompression) :
    ∀ walk : List (String × List String),
      (walk.flatMap (fun sd => sd.2.map (g sd))).length =
        (walk.map (fun sd => sd.2.length)).sum := by
  intro walk
  induction walk with
  | nil => rfl
  | cons sd walk ih => simp [ih]

theorem phase1_nil (db : List Elevator) (rng : Nat → Nat) (fuel k : Nat) :
    phase1 db rng fuel k [] = some ([], k) := by
  rw [phase1]

theorem phase1_zero (db : List Elevator) (rng : Nat → Nat) (k : Nat)
    (r : Nat) (rs : List Nat) :
    phase1 db rng 0 k (r :: rs) = none := by
  rw [phase1]

theorem phase1_cons (db : List Elevator) (rng : Nat → Nat) (fuel k : Nat)
    (r : Nat) (rs : List Nat) :
    phase1 db rng (fuel + 1) k (r :: rs) =
      (match phase1Step db (rng k) (r :: rs) with
       | none => none
       | some (pr, rest) =>
         match phase1 db rng fuel (k + 1) rest with
         | none => none
         | some (prs, k2) => some (pr :: prs, k2)) := by
  rw [phase1]

theorem phase2Loop_nil (db : List Elevator) (fuel : Nat) (frontier : List Nat) :
    phase2Loop db fuel frontier [] = some true := by
  rw [phase2Loop]

theorem phase2Loop_zero (db : List Elevator) (frontier : List Nat)
    (x : Nat) (xs : List Nat) :
    phase2Loop db 0 frontier (x :: xs) = none := by
  rw [phase2Loop]

theorem phase2Loop_cons (db : List Elevator) (fuel : Nat) (frontier : List Nat)
    (x : Nat) (xs : List Nat) :
    phase2Loop db (fuel + 1) frontier (x :: xs) =
      (match sweep db frontier [] (x :: xs) with
       | (cl1, rest) =>
         match cl1 with
         | [] => some false
         | _ :: _ => phase2Loop db fuel cl1 rest) := by
  rw [phase2Loop]

theorem tryRandomize_succ (db : List Elevator) (rng : Nat → Nat) (fuel k : Nat) :
    tryRandomizeElevators db rng (fuel + 1) k =
      (match phase1 db rng db.length k (List.range db.length) with
       | none => none
       | some (pairs, k2) =>
         match List.range db.length with
         | [] => none
         | e0 :: _ =>
           match phase2Loop db db.length [e0] (List.range db.length) with
           | some true => some (pairs, k2)
           | some false => tryRandomizeElevators db rng fuel k2
           | none => none) := by
  rw [tryRandomizeElevators]

theorem foldl_firstOccs_mem :
    ∀ (l acc : List Nat) (a : Nat),
      a ∈ l.foldl (fun acc a => if a ∈ acc then acc else acc ++ [a]) acc ↔
        a ∈ acc ∨ a ∈ l := by
  intro l
  induction l with
  | nil => intro acc a; simp
  | cons b l ih =>
    intro acc a
    rw [List.foldl_cons]
    by_cases hb : b ∈ acc
    · rw [if_pos hb, ih]
      constructor
      · rintro (h | h)
        · exact Or.inl h
        · exact Or.inr (List.mem_cons_of_mem _ h)
      · rintro (h | h)
        · exact Or.inl h
        · rcases List.mem_cons.1 h with h | h
          · subst h; exact Or.inl hb
          · exact Or.inr h
    · rw [if_neg hb, ih]
      constructor
      · rintro (h | h)
        · rcases List.mem_append.1 h with h | h
          · exact Or.inl h
          · rw [List.mem_singleton.1 h]
            exact Or.inr (List.mem_cons_self _ _)
        · exact Or.inr (List.mem_cons_of_mem _ h)
      · rintro (h | h)
        · exact Or.inl (List.mem_append.2 (Or.inl h))
        · rcases List.mem_cons.1 h with h | h
          · subst h
            exact Or.inl (List.mem_append.2 (Or.inr (List.mem_singleton.2 rfl)))
          · exact Or.inr h

theorem mem_firstOccs (l : List Nat) (a : Nat) : a ∈ firstOccs l ↔ a ∈ l := by
  rw [firstOccs, foldl_firstOccs_mem]
  simp

theorem foldl_pickMax_ge (f : Nat → Nat) :
    ∀ (l : List Nat) (w0 : Nat),
      f w0 ≤ f (l.foldl (fun best w2 => if f best < f w2 then w2 else best) w0)
      ∧ ∀ w ∈ l, f w ≤ f (l.foldl (fun best w2 => if f best < f w2 then w2 else best) w0) := by
  intro l
  induction l with
  | nil => intro w0; exact ⟨Nat.le_refl _, by simp⟩
  | cons w2 l ih =>
    intro w0
    rw [List.foldl_cons]
    have h1 : f w0 ≤ f (if f w0 < f w2 then w2 else w0) := by
      by_cases hc : f w0 < f w2
      · rw [if_pos hc]; exact Nat.le_of_lt hc
      · rw [if_neg hc]
    have h2 : f w2 ≤ f (if f w0 < f w2 then w2 else w0) := by
      by_cases hc : f w0 < f w2
      · rw [if_pos hc]
      · rw [if_neg hc]; exact Nat.le_of_not_lt hc
    obtain ⟨ha, hb⟩ := ih (if f w0 < f w2 then w2 else w0)
    refine ⟨Nat.le_trans h1 ha, ?_⟩
    intro w hw
    rcases List.mem_cons.1 hw with h | h
    · subst h; exact Nat.le_trans h2 ha
    · exact hb w h

theorem eWorld_mem_worldOrder (db : List Elevator) (i : Nat) (h : i < db.length) :
    eWorld db i ∈ worldOrder db := by
  rw [worldOrder, mem_firstOccs, eWorld]
  have hget : db.getD i default = db[i] := by
    rw [List.getD_eq_getElem?_getD, List.getElem?_eq_getElem h]
    rfl
  rw [hget]
  exact List.mem_map_of_mem _ (List.getElem_mem h)

theorem pickSourceWorld_ge (db : List Elevator) (remaining : List Nat)
    (hlt : ∀ i ∈ remaining, i < db.length) (w : Nat) :
    groupLen db remaining w ≤ groupLen db remaining (pickSourceWorld db remaining) := by
  by_cases hz : groupLen db remaining w = 0
  · rw [hz]; exact Nat.zero_le _
  · have hne : remaining.filter (fun i => eWorld db i == w) ≠ [] := by
      intro hE
      rw [groupLen, hE] at hz
      exact hz rfl
    obtain ⟨j, hj⟩ := List.exists_mem_of_ne_nil _ hne
    have hjr : j ∈ remaining ∧ eWorld db j = w := by
      have hf := List.mem_filter.1 hj
      exact ⟨hf.1, by simpa using hf.2⟩
    have hwmem : w ∈ worldOrder db := by
      rw [← hjr.2]
      exact eWorld_mem_worldOrder db j (hlt j hjr.1)
    cases hwo : worldOrder db with
    | nil => rw [hwo] at hwmem; simp at hwmem
    | cons w0 ws =>
      have hps : pickSourceWorld db remaining =
          ws.foldl
            (fun best w2 =>
              if groupLen db remaining best < groupLen db remaining w2 then w2 else best)
            w0 := by
        rw [pickSourceWorld, hwo]
      rw [hps]
      rw [hwo] at hwmem
      obtain ⟨ha, hb⟩ := foldl_pickMax_ge (groupLen db remaining) ws w0
      rcases List.mem_cons.1 hwmem with h | h
      · subst h; exact ha
      · exact hb w h

theorem getD_mem (l : List Nat) (i : Nat) (h : i < l.length) : l.getD i 0 ∈ l := by
  rw [List.getD_eq_getElem?_getD, List.getElem?_eq_getElem h]
  exact List.getElem_mem h

theorem phase1Step_inv (db : List Elevator) (draw : Nat) (remaining : List Nat)
    (src tgt : Nat) (rest : List Nat)
    (h : phase1Step db draw remaining = some ((src, tgt), rest)) :
    src ∈ remaining ∧ tgt ∈ remaining
    ∧ eWorld db src = pickSourceWorld db remaining
    ∧ eWorld db tgt ≠ pickSourceWorld db remaining
    ∧ rest = (remaining.erase src).erase tgt
    ∧ (remaining.filter
        (fun i => eWorld db i == pickSourceWorld db remaining)).head? = some src
    ∧ tgt ∈ remaining.filter
        (fun i => eWorld db i != pickSourceWorld db remaining) := by
  rw [phase1Step] at h
  cases hS : remaining.filter (fun i => eWorld db i == pickSourceWorld db remaining) with
  | nil => rw [hS] at h; simp at h
  | cons s ss =>
    cases hT : remaining.filter (fun i => eWorld db i != pickSourceWorld db remaining) with
    | nil => rw [hS, hT] at h; simp at h
    | cons t ts =>
      rw [hS, hT] at h
      have h2 : (s = src ∧ (t :: ts).getD (draw % (t :: ts).length) 0 = tgt)
          ∧ (remaining.erase s).erase ((t :: ts).getD (draw % (t :: ts).length) 0) = rest := by
        simpa using h
      obtain ⟨⟨hsrc, htgt⟩, hrest⟩ := h2
      have hsmem : s ∈ remaining.filter
          (fun i => eWorld db i == pickSourceWorld db remaining) := by
        rw [hS]; exact List.mem_cons_self _ _
      have htmem0 : (t :: ts).getD (draw % (t :: ts).length) 0 ∈ t :: ts :=
        getD_mem _ _ (Nat.mod_lt _ (Nat.succ_pos _))
      have htmem : (t :: ts).getD (draw % (t :: ts).length) 0 ∈
          remaining.filter (fun i => eWorld db i != pickSourceWorld db remaining) := by
        rw [hT]
        exact htmem0
      have hsfilter := List.mem_filter.1 hsmem
      have htfilter := List.mem_filter.1 htmem
      subst hsrc
      subst htgt
      refine ⟨hsfilter.1, htfilter.1, by simpa using hsfilter.2, ?_, hrest.symm, rfl, htmem0⟩
      have hb := htfilter.2
      simp only [bne_iff_ne, ne_eq] at hb
      exact hb

theorem phase1Step_total (db : List Elevator) (draw : Nat) (remaining : List Nat)
    (hne : remaining ≠ []) (hnsw : ¬ allSameWorld db remaining)
    (hlt : ∀ i ∈ remaining, i < db.length) :
    ∃ src tgt rest, phase1Step db draw remaining = some ((src, tgt), rest) := by
  obtain ⟨r, hr⟩ := List.exists_mem_of_ne_nil remaining hne
  have h1 : 0 < groupLen db remaining (eWorld db r) := by
    rw [groupLen, List.length_pos]
    exact List.ne_nil_of_mem (List.mem_filter.2 ⟨hr, by simp⟩)
  have hsrc : remaining.filter
      (fun i => eWorld db i == pickSourceWorld db remaining) ≠ [] := by
    have h2 := Nat.lt_of_lt_of_le h1 (pickSourceWorld_ge db remaining hlt (eWorld db r))
    rw [groupLen, List.length_pos] at h2
    exact h2
  have htgt : remaining.filter
      (fun i => eWorld db i != pickSourceWorld db remaining) ≠ [] := by
    rw [allSameWorld] at hnsw
    push_neg at hnsw
    obtain ⟨i, hi, j, hj, hij⟩ := hnsw
    by_cases hiw : eWorld db i = pickSourceWorld db remaining
    · have hjw : eWorld db j ≠ pickSourceWorld db remaining := fun hE =>
        hij (hiw.trans hE.symm)
      exact List.ne_nil_of_mem (List.mem_filter.2 ⟨hj, by simpa using hjw⟩)
    · exact List.ne_nil_of_mem (List.mem_filter.2 ⟨hi, by simpa using hiw⟩)
  obtain ⟨s, ss, hS⟩ := List.exists_cons_of_ne_nil hsrc
  obtain ⟨t, ts, hT⟩ := List.exists_cons_of_ne_nil htgt
  refine ⟨s, (t :: ts).getD (draw % (t :: ts).length) 0,
    (remaining.erase s).erase ((t :: ts).getD (draw % (t :: ts).length) 0), ?_⟩
  rw [phase1Step, hS, hT]

theorem step_perm (db : List Elevator) (draw : Nat) (remaining : List Nat)
    (src tgt : Nat) (rest : List Nat) (hnd : remaining.Nodup)
    (h : phase1Step db draw remaining = some ((src, tgt), rest)) :
    remaining.Perm (src :: tgt :: rest) ∧ rest.Nodup ∧ rest.length + 2 = remaining.length := by
  have hinv := phase1Step_inv db draw remaining src tgt rest h
  have hne : tgt ≠ src := fun hE => hinv.2.2.2.1 (hE ▸ hinv.2.2.1)
  have hrest := hinv.2.2.2.2.1
  subst hrest
  have h1 : remaining.Perm (src :: remaining.erase src) := List.perm_cons_erase hinv.1
  have htgt2 : tgt ∈ remaining.erase src := (List.mem_erase_of_ne hne).2 hinv.2.1
  have h2 : (remaining.erase src).Perm (tgt :: (remaining.erase src).erase tgt) :=
    List.perm_cons_erase htgt2
  have hperm : remaining.Perm (src :: tgt :: (remaining.erase src).erase tgt) :=
    h1.trans (List.Perm.cons src h2)
  refine ⟨hperm, (hnd.erase src).erase tgt, ?_⟩
  have hlen := hperm.length_eq
  simp at hlen
  omega

theorem phase1_pairs_cross (db : List Elevator) (rng : Nat → Nat) :
    ∀ (fuel k : Nat) (remaining : List Nat) (pairs : List (Nat × Nat)) (k2 : Nat),
      (∀ i ∈ remaining, i < db.length) →
      phase1 db rng fuel k remaining = some (pairs, k2) →
      ∀ p ∈ pairs, p.1 < db.length ∧ p.2 < db.length ∧ eWorld db p.1 ≠ eWorld db p.2 := by
  intro fuel
  induction fuel with
  | zero =>
    intro k remaining pairs k2 hlt h
    cases remaining with
    | nil =>
      rw [phase1_nil] at h
      have h2 : [] = pairs ∧ k = k2 := by simpa using h
      intro p hp
      rw [← h2.1] at hp
      simp at hp
    | cons r rs =>
      rw [phase1_zero] at h
      simp at h
  | succ fuel ih =>
    intro k remaining pairs k2 hlt h
    cases remaining with
    | nil =>
      rw [phase1_nil] at h
      have h2 : [] = pairs ∧ k = k2 := by simpa using h
      intro p hp
      rw [← h2.1] at hp
      simp at hp
    | cons r rs =>
      rw [phase1_cons] at h
      cases hstep : phase1Step db (rng k) (r :: rs) with
      | none => rw [hstep] at h; simp at h
      | some prrest =>
        obtain ⟨⟨src, tgt⟩, rest⟩ := prrest
        rw [hstep] at h
        have h3 : (match phase1 db rng fuel (k + 1) rest with
            | none => none
            | some (prs, k2) => some ((src, tgt) :: prs, k2)) = some (pairs, k2) := h
        cases hrec : phase1 db rng fuel (k + 1) rest with
        | none => rw [hrec] at h3; simp at h3
        | some prsk =>
          obtain ⟨prs, k3⟩ := prsk
          rw [hrec] at h3
          have h2 : (src, tgt) :: prs = pairs ∧ k3 = k2 := by simpa using h3
          have hinv := phase1Step_inv db (rng k) (r :: rs) src tgt rest hstep
          have hltrest : ∀ i ∈ rest, i < db.length := by
            intro i hi
            rw [hinv.2.2.2.2.1] at hi
            exact hlt i (List.mem_of_mem_erase (List.mem_of_mem_erase hi))
          intro p hp
          rw [← h2.1] at hp
          rcases List.mem_cons.1 hp with hcase | hcase
          · subst hcase
            refine ⟨hlt src hinv.1, hlt tgt hinv.2.1, ?_⟩
            rw [hinv.2.2.1]
            exact fun hE => hinv.2.2.2.1 hE.symm
          · exact ih (k + 1) rest prs k3 hltrest hrec p hcase

theorem sweep_acc_subset (db : List Elevator) :
    ∀ (fs cl1 l3 : List Nat) (c : Nat), c ∈ cl1 → c ∈ (sweep db fs cl1 l3).1 := by
  intro fs
  induction fs with
  | nil =>
    intro cl1 l3 c hc
    rw [sweep]
    exact hc
  | cons f fs ih =>
    intro cl1 l3 c hc
    rw [sweep]
    exact ih _ _ c (List.mem_append.2 (Or.inl hc))

theorem sweep_mem_cl1 (db : List Elevator) :
    ∀ (fs cl1 l3 : List Nat) (c : Nat),
      c ∈ (sweep db fs cl1 l3).1 →
      c ∈ cl1 ∨ ∃ f ∈ fs, wavefrontTest db c f = true := by
  intro fs
  induction fs with
  | nil =>
    intro cl1 l3 c hc
    rw [sweep] at hc
    exact Or.inl hc
  | cons f fs ih =>
    intro cl1 l3 c hc
    rw [sweep] at hc
    rcases ih _ _ c hc with hcase | ⟨f2, hf2, ht⟩
    · rcases List.mem_append.1 hcase with hcase | hcase
      · exact Or.inl hcase
      · exact Or.inr ⟨f, List.mem_cons_self _ _, (List.mem_filter.1 hcase).2⟩
    · exact Or.inr ⟨f2, List.mem_cons_of_mem _ hf2, ht⟩

theorem sweep_mem_l3 (db : List Elevator) :
    ∀ (fs cl1 l3 : List Nat) (x : Nat), x ∈ l3 →
      x ∈ (sweep db fs cl1 l3).1 ∨ x ∈ (sweep db fs cl1 l3).2 := by
  intro fs
  induction fs with
  | nil =>
    intro cl1 l3 x hx
    rw [sweep]
    exact Or.inr hx
  | cons f fs ih =>
    intro cl1 l3 x hx
    rw [sweep]
    by_cases ht : wavefrontTest db x f = true
    · left
      exact sweep_acc_subset db fs _ _ x
        (List.mem_append.2 (Or.inr (List.mem_filter.2 ⟨hx, ht⟩)))
    · exact ih _ _ x (List.mem_filter.2 ⟨hx, by simpa using ht⟩)

theorem wavefrontTest_linked (db : List Elevator) (c f : Nat)
    (h : wavefrontTest db c f = true) : linkedElevators db f c := by
  rw [wavefrontTest] at h
  simp only [Bool.or_eq_true, beq_iff_eq] at h
  rcases h with h | h
  · exact Or.inl h.symm
  · exact Or.inr (Or.inl h)

theorem linkedElevators_symm (db : List Elevator) : Symmetric (linkedElevators db) := by
  intro a b h
  rcases h with h | h | h
  · exact Or.inl h.symm
  · exact Or.inr (Or.inr h)
  · exact Or.inr (Or.inl h)

theorem phase2_reach (db : List Elevator) (start : Nat) :
    ∀ (fuel : Nat) (frontier l3 : List Nat),
      (∀ f ∈ frontier, Relation.ReflTransGen (linkedElevators db) start f) →
      phase2Loop db fuel frontier l3 = some true →
      ∀ x ∈ l3, Relation.ReflTransGen (linkedElevators db) start x := by
  intro fuel
  induction fuel with
  | zero =>
    intro frontier l3 hfront h
    cases l3 with
    | nil => intro x hx; simp at hx
    | cons a l => rw [phase2Loop_zero] at h; simp at h
  | succ fuel ih =>
    intro frontier l3 hfront h
    cases l3 with
    | nil => intro x hx; simp at hx
    | cons a l =>
      rw [phase2Loop_cons] at h
      cases hsw : sweep db frontier [] (a :: l) with
      | mk cl1 rest =>
        rw [hsw] at h
        cases hcl : cl1 with
        | nil => rw [hcl] at h; simp at h
        | cons c cs =>
          rw [hcl] at h
          have h2 : phase2Loop db fuel (c :: cs) rest = some true := h
          have hfront2 : ∀ f ∈ c :: cs,
              Relation.ReflTransGen (linkedElevators db) start f := by
            intro f hf
            have hfmem : f ∈ (sweep db frontier [] (a :: l)).1 := by
              rw [hsw, hcl]
              exact hf
            rcases sweep_mem_cl1 db frontier [] (a :: l) f hfmem with h0 | ⟨f2, hf2, ht⟩
            · simp at h0
            · exact Relation.ReflTransGen.tail (hfront f2 hf2)
                (wavefrontTest_linked db f f2 ht)
          intro x hx
          rcases sweep_mem_l3 db frontier [] (a :: l) x hx with h1 | h1
          · rw [hsw, hcl] at h1
            exact hfront2 x h1
          · rw [hsw] at h1
            exact ih (c :: cs) rest hfront2 h2 x h1

theorem tryRandomize_zero (db : List Elevator) (rng : Nat → Nat) (k : Nat) :
    tryRandomizeElevators db rng 0 k = none := by
  rw [tryRandomizeElevators]

theorem phase1_cons_step (db : List Elevator) (rng : Nat → Nat) (fuel k : Nat)
    (r : Nat) (rs : List Nat) (src tgt : Nat) (rest : List Nat)
    (pairs : List (Nat × Nat)) (k2 : Nat)
    (hstep : phase1Step db (rng k) (r :: rs) = some ((src, tgt), rest))
    (hrec : phase1 db rng fuel (k + 1) rest = some (pairs, k2)) :
    phase1 db rng (fuel + 1) k (r :: rs) = some ((src, tgt) :: pairs, k2) := by
  rw [phase1_cons, hstep]
  show (match phase1 db rng fuel (k + 1) rest with
    | none => none
    | some (prs, k2) => some ((src, tgt) :: prs, k2)) = some ((src, tgt) :: pairs, k2)
  rw [hrec]

/-! ## Claim theorems -/

/-- C1: for every completed (returned) result of
`try_randomize_elevators`, the wavefront-expansion validation relation —
two elevators are linked when they share a `world_number` or one's
`area_asset_id` equals the other's pre-shuffle destination area — visits
all elevators starting from any single elevator: between any two
elevator positions of the database there is a path of links, i.e. the
returned elevator graph is a single connected component.  A pairing for
which the expansion stalls is not returned (the `some false` branch of
the embedded Phase 2 retries from scratch instead of returning). -/
theorem elevator_result_single_component (db : List Elevator) (rng : Nat → Nat)
    (fuel k : Nat) (pairs : List (Nat × Nat)) (k2 : Nat)
    (h : tryRandomizeElevators db rng fuel k = some (pairs, k2)) :
    ∀ s t : Nat, s < db.length → t < db.length →
      Relation.ReflTransGen (linkedElevators db) s t := by
  have main : ∀ (fuel k : Nat) (pairs : List (Nat × Nat)) (k2 : Nat),
      tryRandomizeElevators db rng fuel k = some (pairs, k2) →
      ∀ s t : Nat, s < db.length → t < db.length →
        Relation.ReflTransGen (linkedElevators db) s t := by
    intro fuel
    induction fuel with
    | zero =>
      intro k pairs k2 h2
      rw [tryRandomize_zero] at h2
      simp at h2
    | succ fuel ih =>
      intro k pairs k2 h2
      rw [tryRandomize_succ] at h2
      cases hp1 : phase1 db rng db.length k (List.range db.length) with
      | none => rw [hp1] at h2; simp at h2
      | some p0k =>
        obtain ⟨pairs0, k3⟩ := p0k
        rw [hp1] at h2
        have h3 : (match List.range db.length with
            | [] => none
            | e0 :: _ =>
              match phase2Loop db db.length [e0] (List.range db.length) with
              | some true => some (pairs0, k3)
              | some false => tryRandomizeElevators db rng fuel k3
              | none => none) = some (pairs, k2) := h2
        cases hr : List.range db.length with
        | nil => rw [hr] at h3; simp at h3
        | cons e0 es =>
          rw [hr] at h3
          have h4 : (match phase2Loop db db.length [e0] (e0 :: es) with
              | some true => some (pairs0, k3)
              | some false => tryRandomizeElevators db rng fuel k3
              | none => none) = some (pairs, k2) := h3
          cases hp2 : phase2Loop db db.length [e0] (e0 :: es) with
          | none => rw [hp2] at h4; simp at h4
          | some b =>
            rw [hp2] at h4
            cases b with
            | false => exact ih k3 pairs k2 h4
            | true =>
              intro s t hs ht
              have hreach : ∀ x ∈ e0 :: es,
                  Relation.ReflTransGen (linkedElevators db) e0 x := by
                refine phase2_reach db e0 db.length [e0] (e0 :: es) ?_ hp2
                intro f hf
                rw [List.mem_singleton] at hf
                subst hf
                exact Relation.ReflTransGen.refl
              have hsr := hreach s (by rw [← hr]; exact List.mem_range.2 hs)
              have htr := hreach t (by rw [← hr]; exact List.mem_range.2 ht)
              exact (Relation.ReflTransGen.symmetric (linkedElevators_symm db) hsr).trans htr
  exact main fuel k pairs k2 h

/-- Witness for C1: on the two-elevator sample database the shuffle
completes and elevator 0 reaches elevator 1 through the validation
relation. -/
theorem elevator_result_single_component_witness :
    Relation.ReflTransGen (linkedElevators sampleElevatorDb) 0 1 :=
  elevator_result_single_component sampleElevatorDb sampleRng 1 0 [(0, 1)] 1 (by decide)
    0 1 (by decide) (by decide)

/-- C7: every Phase 1 pairing step takes as source the first elevator of
the largest remaining per-world group (head of the group of
`pickSourceWorld`, which has maximal size) and a target outside that
group, and consequently in every returned result of
`try_randomize_elevators` every connection joins two elevators with
different originating world numbers. -/
theorem phase1_cross_world (db : List Elevator) (rng : Nat → Nat)
    (fuel k : Nat) (pairs : List (Nat × Nat)) (k2 : Nat)
    (h : tryRandomizeElevators db rng fuel k = some (pairs, k2)) :
    (∀ (draw : Nat) (remaining : List Nat) (pr : Nat × Nat) (rest : List Nat),
        (∀ i ∈ remaining, i < db.length) →
        phase1Step db draw remaining = some (pr, rest) →
        (remaining.filter
          (fun i => eWorld db i == pickSourceWorld db remaining)).head? = some pr.1
        ∧ pr.2 ∉ remaining.filter
            (fun i => eWorld db i == pickSourceWorld db remaining)
        ∧ ∀ w2, groupLen db remaining w2 ≤
            groupLen db remaining (pickSourceWorld db remaining))
    ∧ ∀ p ∈ pairs, p.1 < db.length ∧ p.2 < db.length ∧ eWorld db p.1 ≠ eWorld db p.2 := by
  constructor
  · intro draw remaining pr rest hlt hstep
    have hinv := phase1Step_inv db draw remaining pr.1 pr.2 rest hstep
    refine ⟨hinv.2.2.2.2.2.1, ?_, fun w2 => pickSourceWorld_ge db remaining hlt w2⟩
    intro hmem
    have hb := (List.mem_filter.1 hmem).2
    exact hinv.2.2.2.1 (by simpa using hb)
  · have main : ∀ (fuel k : Nat) (pairs : List (Nat × Nat)) (k2 : Nat),
        tryRandomizeElevators db rng fuel k = some (pairs, k2) →
        ∀ p ∈ pairs, p.1 < db.length ∧ p.2 < db.length ∧ eWorld db p.1 ≠ eWorld db p.2 := by
      intro fuel
      induction fuel with
      | zero =>
        intro k pairs k2 h2
        rw [tryRandomize_zero] at h2
        simp at h2
      | succ fuel ih =>
        intro k pairs k2 h2
        rw [tryRandomize_succ] at h2
        cases hp1 : phase1 db rng db.length k (List.range db.length) with
        | none => rw [hp1] at h2; simp at h2
        | some p0k =>
          obtain ⟨pairs0, k3⟩ := p0k
          rw [hp1] at h2
          have h3 : (match List.range db.length with
              | [] => none
              | e0 :: _ =>
                match phase2Loop db db.length [e0] (List.range db.length) with
                | some true => some (pairs0, k3)
                | some false => tryRandomizeElevators db rng fuel k3
                | none => none) = some (pairs, k2) := h2
          cases hr : List.range db.length with
          | nil => rw [hr] at h3; simp at h3
          | cons e0 es =>
            rw [hr] at h3
            have h4 : (match phase2Loop db db.length [e0] (e0 :: es) with
                | some true => some (pairs0, k3)
                | some false => tryRandomizeElevators db rng fuel k3
                | none => none) = some (pairs, k2) := h3
            cases hp2 : phase2Loop db db.length [e0] (e0 :: es) with
            | none => rw [hp2] at h4; simp at h4
            | some b =>
              rw [hp2] at h4
              cases b with
              | false => exact ih k3 pairs k2 h4
              | true =>
                have h5 : pairs0 = pairs ∧ k3 = k2 := by simpa using h4
                rw [← h5.1]
                exact phase1_pairs_cross db rng db.length k (List.range db.length)
                  pairs0 k3 (fun i hi => List.mem_range.1 hi) hp1
    exact main fuel k pairs k2 h

/-- Witness for C7: the single connection of the completed sample run
joins elevator 0 (world 0) and elevator 1 (world 1). -/
theorem phase1_cross_world_witness :
    ((0, 1) : Nat × Nat).1 < sampleElevatorDb.length
    ∧ ((0, 1) : Nat × Nat).2 < sampleElevatorDb.length
    ∧ eWorld sampleElevatorDb ((0, 1) : Nat × Nat).1 ≠
        eWorld sampleElevatorDb ((0, 1) : Nat × Nat).2 :=
  (phase1_cross_world sampleElevatorDb sampleRng 1 0 [(0, 1)] 1 (by decide)).2
    (0, 1) (by decide)

/-- C10: under the unstated precondition that at every pairing step the
remaining unpaired elevators do not all belong to a single world
(`Phase1Safe`), Phase 1 never hits the empty-target-list draw (embedded
as `none`), terminates, and pairs every elevator exactly once: with any
sufficient fuel it succeeds, the endpoints of the produced connections
are a permutation of the remaining-elevator list, and that list's length
is even — twice the number of connections. -/
theorem phase1_safety (db : List Elevator) (rng : Nat → Nat) (k : Nat)
    (remaining : List Nat) (fuel : Nat)
    (hs : Phase1Safe db rng k remaining) (hnd : remaining.Nodup)
    (hlt : ∀ i ∈ remaining, i < db.length) (hfuel : remaining.length ≤ fuel) :
    ∃ pairs k2, phase1 db rng fuel k remaining = some (pairs, k2)
      ∧ (pairs.flatMap (fun p => [p.1, p.2])).Perm remaining
      ∧ remaining.length = 2 * pairs.length := by
  revert hnd hlt fuel
  induction hs with
  | nil k1 =>
    intro fuel hnd hlt hfuel
    exact ⟨[], k1, phase1_nil db rng fuel k1, by simp, by simp⟩
  | step k1 remaining1 hne hnsw hsafe ih =>
    intro fuel hnd hlt hfuel
    obtain ⟨src, tgt, rest0, hstep⟩ := phase1Step_total db (rng k1) remaining1 hne hnsw hlt
    have hrest : stepRest db (rng k1) remaining1 = rest0 := by
      rw [stepRest, hstep]
    obtain ⟨hperm, hndr, hlen⟩ := step_perm db (rng k1) remaining1 src tgt rest0 hnd hstep
    have hltr : ∀ i ∈ rest0, i < db.length := by
      intro i hi
      exact hlt i ((hperm.mem_iff).2
        (List.mem_cons_of_mem _ (List.mem_cons_of_mem _ hi)))
    cases fuel with
    | zero =>
      exfalso
      exact hne (List.length_eq_zero.1 (Nat.le_zero.1 hfuel))
    | succ fuel =>
      have hfuel2 : rest0.length ≤ fuel := by omega
      rw [hrest] at ih
      obtain ⟨pairs, k2, hp1, hp2, hp3⟩ := ih fuel hndr hltr hfuel2
      obtain ⟨r, rs, hcons⟩ := List.exists_cons_of_ne_nil hne
      subst hcons
      refine ⟨(src, tgt) :: pairs, k2, ?_, ?_, ?_⟩
      · exact phase1_cons_step db rng fuel k1 r rs src tgt rest0 pairs k2 hstep hp1
      · have hflat : (((src, tgt) :: pairs).flatMap fun p => [p.1, p.2])
            = src :: tgt :: (pairs.flatMap fun p => [p.1, p.2]) := by simp
        rw [hflat]
        exact ((hp2.cons tgt).cons src).trans hperm.symm
      · simp only [List.length_cons] at hlen ⊢
        omega

/-- Witness for C10: the sample database run with two elevators in
different worlds satisfies the step-wise precondition and pairs both
elevators exactly once. -/
theorem phase1_safety_witness :
    ∃ pairs k2, phase1 sampleElevatorDb sampleRng 2 0 [0, 1] = some (pairs, k2)
      ∧ (pairs.flatMap (fun p => [p.1, p.2])).Perm [0, 1]
      ∧ ([0, 1] : List Nat).length = 2 * pairs.length :=
  phase1_safety sampleElevatorDb sampleRng 0 [0, 1] 2
    (Phase1Safe.step 0 [0, 1] (by decide) (by decide)
      (by
        have hE : stepRest sampleElevatorDb (sampleRng 0) [0, 1] = [] := by decide
        rw [hE]
        exact Phase1Safe.nil 1))
    (by decide) (by decide) (by decide)

/-- C2: `_run_with_args` returns normally if and only if some line
dispatched from the subprocess's output equals the exact finish sentinel
string; if the sentinel line is never observed it raises an
external-tool-protocol error naming the sentinel; and the subprocess's
exit code is never consulted to decide success or failure (the result is
the same for every exit code and argument list). -/
theorem run_with_args_finish_sentinel (args : List String) (exitCode : Int)
    (dispatched : List String) (finish_string : String) :
    (run_with_args args exitCode dispatched finish_string = Except.ok () ↔
      finish_string ∈ dispatched)
    ∧ (finish_string ∉ dispatched →
        run_with_args args exitCode dispatched finish_string =
          Except.error
            ("External tool did not send " ++ finish_string ++ ". Did something happen?"))
    ∧ (∀ (args2 : List String) (exitCode2 : Int),
        run_with_args args exitCode dispatched finish_string =
          run_with_args args2 exitCode2 dispatched finish_string) := by
  refine ⟨?_, ?_, fun _ _ => rfl⟩
  · rw [run_with_args]
    by_cases h : finishedUpdatesAfter dispatched finish_string = true
    · simp [h, (finishedUpdatesAfter_iff dispatched finish_string).1 h]
    · have h2 : ¬ finish_string ∈ dispatched :=
        fun hmem => h ((finishedUpdatesAfter_iff dispatched finish_string).2 hmem)
      simp [h, h2]
  · intro hmem
    have h : finishedUpdatesAfter dispatched finish_string = false := by
      rcases Bool.eq_false_or_eq_true (finishedUpdatesAfter dispatched finish_string) with h | h
      · exact absurd ((finishedUpdatesAfter_iff dispatched finish_string).1 h) hmem
      · exact h
    rw [run_with_args, h]
    rfl

/-- Witness for C2 at a concrete dispatched-line list containing the
sentinel. -/
theorem run_with_args_finish_sentinel_witness :
    run_with_args ["Randomizer.exe"] 0 ["starting", "Randomized!"] "Randomized!" =
      Except.ok () :=
  (run_with_args_finish_sentinel ["Randomizer.exe"] 0 ["starting", "Randomized!"]
      "Randomized!").1.mpr (by decide)

/-- C4: assigning a pair whose pickup index is already present in
`pickup_assignment` fails with an assertion (`none`); when all supplied
indices are absent from the existing mapping and mutually distinct, the
call succeeds and returns an overlay whose `pickup_assignment` is the
original mapping merged with the new pairs.  `assign_pickup_assignment`
is the convenience form of the same operation. -/
theorem assign_new_pickups_write_once (p : GamePatches)
    (assignments : List (Nat × PickupEntry)) :
    ((∃ pr ∈ assignments, pickupKeyMem p.pickup_assignment pr.1 = true) →
      p.assign_new_pickups assignments = none)
    ∧ ((∀ pr ∈ assignments, pickupKeyMem p.pickup_assignment pr.1 = false) →
        (assignments.map Prod.fst).Nodup →
        p.assign_new_pickups assignments =
          some { p with pickup_assignment := p.pickup_assignment ++ assignments })
    ∧ p.assign_pickup_assignment assignments = p.assign_new_pickups assignments := by
  refine ⟨?_, ?_, rfl⟩
  · intro hdup
    rw [GamePatches.assign_new_pickups, assignFold_none assignments p.pickup_assignment hdup]
  · intro hfresh hnd
    rw [GamePatches.assign_new_pickups,
      assignFold_some assignments p.pickup_assignment hfresh hnd]

/-- Witness for C4: on an overlay with one prior assignment at index 1,
re-assigning index 1 fails and assigning fresh index 2 merges. -/
theorem assign_new_pickups_write_once_witness :
    samplePatches.assign_new_pickups [(1, ⟨"Light Beam"⟩)] = none
    ∧ samplePatches.assign_new_pickups [(2, ⟨"Light Beam"⟩)] =
        some { samplePatches with
          pickup_assignment := samplePatches.pickup_assignment ++ [(2, ⟨"Light Beam"⟩)] } :=
  ⟨(assign_new_pickups_write_once samplePatches [(1, ⟨"Light Beam"⟩)]).1
      ⟨(1, ⟨"Light Beam"⟩), by decide, by decide⟩,
    (assign_new_pickups_write_once samplePatches [(2, ⟨"Light Beam"⟩)]).2.1
      (by decide) (by decide)⟩

/-- C5: the overlay mutators are pure.  The receiver is a value and is
unchanged by construction; a successful `assign_new_pickups` (and hence
`assign_pickup_assignment`, which is literally the same operation)
differs from the receiver only in `pickup_assignment`, and
`assign_starting_location` differs only in `starting_location`, every
other field of the result being equal to the receiver's. -/
theorem patch_overlay_frame (p q : GamePatches)
    (assignments : List (Nat × PickupEntry)) (location : AreaLocation)
    (h : p.assign_new_pickups assignments = some q) :
    (q.elevator_connection = p.elevator_connection
      ∧ q.dock_connection = p.dock_connection
      ∧ q.dock_weakness = p.dock_weakness
      ∧ q.extra_initial_items = p.extra_initial_items
      ∧ q.starting_location = p.starting_location)
    ∧ ((p.assign_starting_location location).pickup_assignment = p.pickup_assignment
      ∧ (p.assign_starting_location location).elevator_connection = p.elevator_connection
      ∧ (p.assign_starting_location location).dock_connection = p.dock_connection
      ∧ (p.assign_starting_location location).dock_weakness = p.dock_weakness
      ∧ (p.assign_starting_location location).extra_initial_items = p.extra_initial_items
      ∧ (p.assign_starting_location location).starting_location = location)
    ∧ p.assign_pickup_assignment assignments = p.assign_new_pickups assignments := by
  refine ⟨?_, ⟨rfl, rfl, rfl, rfl, rfl, rfl⟩, rfl⟩
  rw [GamePatches.assign_new_pickups] at h
  cases hm : assignments.foldlM assignStep p.pickup_assignment with
  | none => rw [hm] at h; exact absurd h (by simp)
  | some m =>
    rw [hm] at h
    have hq : q = { p with pickup_assignment := m } := by
      cases h
      rfl
    subst hq
    exact ⟨rfl, rfl, rfl, rfl, rfl⟩

/-- C3: for a pickup catalog of size N whose filler item is
"Energy Transfer Module" with original index F, and an overlay
assignment mapping slots to pickups (slots valid and mutually
distinct), the patch array computed by `_calculate_indices` has length
N, each assigned slot holds the original index of the pickup assigned
to it, and every other position holds F. -/
theorem calculate_indices_spec (pdb : PickupDatabase)
    (assignment : List (Nat × PickupEntry))
    (hnd : (assignment.map Prod.fst).Nodup)
    (hlt : ∀ pr ∈ assignment, pr.1 < pdb.total_pickup_count) :
    ∃ arr, calculate_indices pdb assignment = some arr
      ∧ arr.length = pdb.total_pickup_count
      ∧ ∀ i, i < pdb.total_pickup_count →
          arr.getD i 0 =
            (match assignment.lookup i with
             | some pk => pdb.original_index pk
             | none => pdb.original_index (pdb.pickup_by_name uselessPickupName)) := by
  have hreplen :
      (List.replicate pdb.total_pickup_count
        (pdb.original_index (pdb.pickup_by_name uselessPickupName))).length =
        pdb.total_pickup_count := List.length_replicate _ _
  obtain ⟨out, hfold, hlen, hget⟩ :=
    calcIndicesFold pdb assignment
      (List.replicate pdb.total_pickup_count
        (pdb.original_index (pdb.pickup_by_name uselessPickupName)))
      hnd (by rw [hreplen]; exact hlt)
  refine ⟨out, hfold, by rw [hlen, hreplen], ?_⟩
  intro i hi
  have hout := hget i (by rw [hreplen]; exact hi)
  rw [hout]
  cases assignment.lookup i with
  | some pk => rfl
  | none =>
    show (List.replicate pdb.total_pickup_count _).getD i 0 = _
    simp [List.getD_eq_getElem?_getD, hi]

/-- Witness for C3: catalog of size 3, filler original index 5, one
assignment at slot 1 of a pickup with original index 9. -/
theorem calculate_indices_spec_witness :
    ∃ arr, calculate_indices samplePickupDb [(1, ⟨"Space Jump Boots"⟩)] = some arr
      ∧ arr.length = samplePickupDb.total_pickup_count
      ∧ ∀ i, i < samplePickupDb.total_pickup_count →
          arr.getD i 0 =
            (match [(1, (⟨"Space Jump Boots"⟩ : PickupEntry))].lookup i with
             | some pk => samplePickupDb.original_index pk
             | none =>
                samplePickupDb.original_index
                  (samplePickupDb.pickup_by_name uselessPickupName)) :=
  calculate_indices_spec samplePickupDb [(1, ⟨"Space Jump Boots"⟩)] (by decide) (by decide)

/-- C6: `resource_gain_on_collect` of an event node yields exactly one
pair — the event's resource resolved from the database by event index,
amount 1.  For a pickup node it yields the pickup-index resource with
amount 1 followed by exactly the resource gains of the pickup entry the
active (legacy) overlay maps that index to — not the node's nominal
pickup. -/
theorem resource_gain_on_collect_spec (db : ResourceDatabase)
    (patches : ResolverGamePatches) (en : EventNode) (pn : PickupNode)
    (newIndex : Nat) (entry : ResolverPickupEntry)
    (hmap : patches.pickup_mapping[pn.pickup_index]? = some newIndex)
    (hdb : db.pickups[newIndex]? = some entry) :
    en.resource_gain_on_collect db patches =
      [(db.get_by_type_and_index ResourceType.event en.event_index, 1)]
    ∧ pn.resource_gain_on_collect db patches =
        some ((ResourceInfo.pickupIndex pn.pickup_index, 1) :: entry.resource_gain) := by
  refine ⟨rfl, ?_⟩
  simp [PickupNode.resource_gain_on_collect, hmap, hdb, PickupNode.resource]

/-- Witness for C6: overlay mapping pickup index 0 to pickup 2, whose
entry grants two units of item 7. -/
theorem resource_gain_on_collect_spec_witness :
    (⟨"Event", false, 3⟩ : EventNode).resource_gain_on_collect sampleResourceDb ⟨[2]⟩ =
      [(ResourceInfo.simple ResourceType.event 3, 1)]
    ∧ (⟨"Pickup", false, 0⟩ : PickupNode).resource_gain_on_collect sampleResourceDb ⟨[2]⟩ =
        some ((ResourceInfo.pickupIndex 0, 1) ::
          [(ResourceInfo.simple ResourceType.item 7, 2)]) :=
  resource_gain_on_collect_spec sampleResourceDb ⟨[2]⟩ ⟨"Event", false, 3⟩ ⟨"Pickup", false, 0⟩
    2 ⟨[(ResourceInfo.simple ResourceType.item 7, 2)]⟩ rfl rfl

/-- C8 fails on the code: `_actions` is declared with a mutable default
in the class body of `TrackerWindow`, making it a single class attribute
shared by every instance, and `__init__`/`_add_new_action` only ever
`append` to it.  This theorem evaluates the embedded code at the failing
input: window A starts at node 0 and records a double-clicked node 1;
window B is then constructed with initial node 2.  B's freshly
constructed history is `[0, 1, 2]` — its first entry is window A's
initial node, not B's, and it does not contain exactly B's initial
node. -/
theorem tracker_second_window_history_bug :
    tracker_init (tracker_on_tree_node_double_clicked (tracker_init ([] : List Nat) 0) 1) 2 =
      [0, 1, 2]
    ∧ (tracker_init
        (tracker_on_tree_node_double_clicked (tracker_init ([] : List Nat) 0) 1) 2).head? =
        some 0
    ∧ (0 : Nat) ≠ 2
    ∧ (tracker_init
        (tracker_on_tree_node_double_clicked (tracker_init ([] : List Nat) 0) 1) 2).length ≠ 1
    ∧ tracker_init ([] : List Nat) 2 = [2] := by
  decide

/-- C9: the produced archive consists of exactly one entry per staged
bundle path under the versioned prefix, then exactly one `README.html`
entry, then one entry per file under the readme-assets directory — no
extra entries and no omissions — and every entry is written
deflate-compressed. -/
theorem release_zip_entries_spec (version readme_html : String)
    (package_files : List String) (readme_walk : List (String × List String)) :
    (create_windows_release version package_files readme_html readme_walk).entries =
      (package_files.map fun f =>
        ("randovania-" ++ version ++ "/" ++ f, ZipCompression.deflated))
      ++ [("randovania-" ++ version ++ "/README.html", ZipCompression.deflated)]
      ++ (readme_walk.flatMap (fun sd => sd.2.map fun file =>
            ("randovania-" ++ version ++ "/" ++ sd.1 ++ "/" ++ file, ZipCompression.deflated)))
    ∧ (create_windows_release version package_files readme_html readme_walk).entries.length =
        package_files.length + 1 + (readme_walk.map fun sd => sd.2.length).sum
    ∧ ∀ e ∈ (create_windows_release version package_files readme_html readme_walk).entries,
        e.2 = ZipCompression.deflated := by
  have hmain :
      (create_windows_release version package_files readme_html readme_walk).entries =
        (package_files.map fun f =>
          ("randovania-" ++ version ++ "/" ++ f, ZipCompression.deflated))
        ++ [("randovania-" ++ version ++ "/README.html", ZipCompression.deflated)]
        ++ (readme_walk.flatMap (fun sd => sd.2.map fun file =>
              ("randovania-" ++ version ++ "/" ++ sd.1 ++ "/" ++ file,
                ZipCompression.deflated))) := by
    rw [create_windows_release]
    rw [walk_fold_entries]
    simp only [ZipFile.writestr, files_fold_entries]
    simp
  refine ⟨hmain, ?_, ?_⟩
  · rw [hmain]
    simp only [List.length_append, List.length_map, List.length_cons, List.length_nil]
    rw [bind_map_length
      (fun sd file =>
        ("randovania-" ++ version ++ "/" ++ sd.1 ++ "/" ++ file, ZipCompression.deflated))
      readme_walk]
  · intro e he
    rw [hmain] at he
    rcases List.mem_append.1 he with he | he
    · rcases List.mem_append.1 he with he | he
      · obtain ⟨f, _, rfl⟩ := List.mem_map.1 he
        rfl
      · rw [List.mem_singleton.1 he]
    · obtain ⟨sd, _, hin⟩ := List.mem_flatMap.1 he
      obtain ⟨file, _, rfl⟩ := List.mem_map.1 hin
      rfl

/-- Witness for C9: a one-file bundle plus a one-file readme-assets
directory; the first produced entry is deflate-compressed. -/
theorem release_zip_entries_spec_witness :
    (("randovania-1.0/app.exe", ZipCompression.deflated) :
      String × ZipCompression).2 = ZipCompression.deflated :=
  (release_zip_entries_spec "1.0" "readme" ["app.exe"]
      [("randovania-readme", ["logo.png"])]).2.2
    ("randovania-1.0/app.exe", ZipCompression.deflated) (by decide)

/-- Witness for C5 at a concrete overlay and a successful assignment. -/
theorem patch_overlay_frame_witness :
    ({ samplePatches with
        pickup_assignment := samplePatches.pickup_assignment ++ [(2, ⟨"Light Beam"⟩)] }
          : GamePatches).starting_location = samplePatches.starting_location :=
  (patch_overlay_frame samplePatches
      { samplePatches with
        pickup_assignment := samplePatches.pickup_assignment ++ [(2, ⟨"Light Beam"⟩)] }
      [(2, ⟨"Light Beam"⟩)] ⟨3, 4⟩ (by decide)).1.2.2.2.2

end Randovania
